import Mathlib

/-!
Shallow embedding of the yac expression simplifier (src/src/simplifier/mod.rs).

The expression tree type `Ast` and its construction capability (the Rust
module `crate::ast`, which is not part of the given sources) are modelled
from the specification; everything in the `Simplifier` impl is translated
directly from the Rust source.
-/

/-- Modelled from the spec: the n-ary operator tags of `crate::ast`
(`BinaryOp::Add`, `BinaryOp::Mul`, `BinaryOp::Pow`). -/
inductive BinaryOp : Type
  | add
  | mul
  | pow
deriving DecidableEq, Repr

/-- Modelled from the spec: the unary operator tag of `crate::ast`
(`UnaryOp::Fac`, the only unary operator). -/
inductive UnaryOp : Type
  | fac
deriving DecidableEq, Repr

/-- Modelled from the spec: the expression node of `crate::ast` — a tagged
variant holding an integer literal, a symbol name, a unary operator with one
operand, or an n-ary operator with an ordered list of operands (§3). -/
inductive Ast : Type
  | num (n : Int)
  | var (s : String)
  | unary (op : UnaryOp) (operand : Ast)
  | binary (op : BinaryOp) (operands : List Ast)
deriving Repr

mutual

/-- Modelled from the spec: structural equality of expression nodes (§3) —
same variant, same operator tag, same value or name, children equal
element-wise in the same order. -/
def Ast.beq : Ast → Ast → Bool
  | .num a, .num b => a == b
  | .var a, .var b => a == b
  | .unary o a, .unary p b => o == p && Ast.beq a b
  | .binary o la, .binary p lb => o == p && Ast.beqList la lb
  | _, _ => false

/-- Element-wise structural equality of children sequences. -/
def Ast.beqList : List Ast → List Ast → Bool
  | [], [] => true
  | x :: xs, y :: ys => Ast.beq x y && Ast.beqList xs ys
  | _, _ => false

end

/-- Structural induction over `Ast` with the binary case quantified over
children membership. -/
def Ast.inductionOn (motive : Ast → Prop)
    (hnum : ∀ n, motive (.num n)) (hvar : ∀ s, motive (.var s))
    (hunary : ∀ op a, motive a → motive (.unary op a))
    (hbinary : ∀ op l, (∀ a ∈ l, motive a) → motive (.binary op l)) :
    ∀ a, motive a := by
  intro a
  induction a using Ast.rec (motive_2 := fun l => ∀ a ∈ l, motive a) with
  | num n => exact hnum n
  | var s => exact hvar s
  | unary op a ih => exact hunary op a ih
  | binary op l ih => exact hbinary op l ih
  | nil => rename_i a ha; exact absurd ha (List.not_mem_nil a)
  | cons x xs hx hxs =>
      rename_i a ha
      rcases List.mem_cons.mp ha with h | h
      · exact h ▸ hx
      · exact hxs a h

def Ast.beqList_iff : ∀ l m : List Ast,
    (∀ a ∈ l, ∀ b : Ast, (Ast.beq a b = true) ↔ a = b) →
    ((Ast.beqList l m = true) ↔ l = m) := by
  intro l
  induction l with
  | nil => intro m ih; cases m <;> simp [Ast.beqList]
  | cons x xs ihl =>
      intro m ih
      cases m with
      | nil => simp [Ast.beqList]
      | cons y ys =>
          simp only [Ast.beqList, Bool.and_eq_true, List.cons.injEq]
          rw [ih x (List.mem_cons_self x xs) y,
            ihl ys (fun a ha => ih a (List.mem_cons_of_mem x ha))]

def Ast.beq_iff : ∀ a b : Ast, (Ast.beq a b = true) ↔ a = b := by
  intro a
  induction a using Ast.inductionOn with
  | hnum n => intro b; cases b <;> simp [Ast.beq]
  | hvar s => intro b; cases b <;> simp [Ast.beq]
  | hunary op a ih => intro b; cases b <;> simp [Ast.beq, ih]
  | hbinary op l ih =>
      intro b
      cases b <;> simp [Ast.beq, Ast.beqList_iff l _ ih]

instance : DecidableEq Ast := fun a b =>
  decidable_of_iff (Ast.beq a b = true) (Ast.beq_iff a b)

/-- Modelled from the spec: the identity value of each n-ary operator
(§4.5: Add has identity 0, Multiply has identity 1, Power has identity 1). -/
def BinaryOp.identity : BinaryOp → Int
  | .add => 0
  | .mul => 1
  | .pow => 1

/-- Modelled from the spec: conversion of a `Binary` builder into an `Ast`
node (the `From<Binary> for Ast` impl of `crate::ast`, exercised in the
source as `.into()` and `Binary::build`).  Per §3, zero-child and one-child
n-ary nodes fold to the operator's identity value and to the single
remaining operand respectively; with two or more children a plain n-ary
node is produced.  This collapsing behaviour is forced by the source's own
tests (`test_combine_terms` expects the bare term `3`, which requires
`Add([1])` to convert to the literal `1`, and `Mul([2])` to `2`). -/
def Binary.build (op : BinaryOp) : List Ast → Ast
  | [] => .num op.identity
  | [a] => a
  | operands => .binary op operands

/-- True exactly on literal-number nodes. -/
def Ast.isNum : Ast → Bool
  | .num _ => true
  | _ => false

/-- True exactly on n-ary operator nodes. -/
def Ast.isBinary : Ast → Bool
  | .binary _ _ => true
  | _ => false

/-- True exactly on unary operator nodes. -/
def Ast.isUnary : Ast → Bool
  | .unary _ _ => true
  | _ => false

/-- Removes unnecessary parenthesis (`Simplifier::de_paren`): on an n-ary
node, each child that is an n-ary node with the same operator is replaced by
its own children, spliced in place; every other child is kept as a singleton. -/
def de_paren (ast : Ast) : Ast :=
  match ast with
  | .binary op operands =>
      Binary.build op
        ((operands.map fun c =>
          match c with
          | .binary b cs => if b = op then cs else [.binary b cs]
          | c => [c]).flatten)
  | a => a

/-- One step of associative flattening, stated recursively: used to express
what `de_paren` does to the child list. -/
def spliceSame (op : BinaryOp) : List Ast → List Ast
  | [] => []
  | .binary b cs :: rest =>
      if b = op then cs ++ spliceSame op rest else .binary b cs :: spliceSame op rest
  | c :: rest => c :: spliceSame op rest

/-- The literal value carried by a node, if it is a literal number. -/
def numLit : Ast → Option Int
  | .num n => some n
  | _ => none

/-- One accumulator update of `Simplifier::binary_num_ops`, applied to each
literal child in operand order: Add sums, Mul multiplies, and Pow raises the
literal to the power of the current accumulator (`(*n).pow(result)` in the
source — the literal is the base, the running result the exponent; a
negative running result is clamped by the cast to a natural exponent). -/
def foldStep (op : BinaryOp) (acc v : Int) : Int :=
  match op with
  | .add => acc + v
  | .mul => acc * v
  | .pow => v ^ acc.toNat

/-- The single pass of `Simplifier::binary_num_ops` over the operand list:
literal children are removed and folded into the accumulator, all other
children are kept in order (the Rust `filter` whose closure updates
`result` as a side effect). -/
def bnoPass (op : BinaryOp) : List Ast → Int → List Ast × Int
  | [], result => ([], result)
  | a :: rest, result =>
      match a with
      | .num n => bnoPass op rest (foldStep op result n)
      | other =>
          let p := bnoPass op rest result
          (other :: p.1, p.2)

/-- Calculates binary operations immediately calculable
(`Simplifier::binary_num_ops`): folds all literal children of an n-ary node
into one value, starting from the operator's identity (the `init` match in
the source), and appends it as a last literal child when it differs from
the identity. -/
def binary_num_ops (ast : Ast) : Ast :=
  match ast with
  | .binary op operands =>
      let p := bnoPass op operands op.identity
      Binary.build op (if p.2 ≠ op.identity then p.1 ++ [.num p.2] else p.1)
  | a => a

/-- The product of the integers `1..=n` (the Rust `(1..=n).product()`),
empty — hence `1` — when `n < 1`. -/
def prodRange (n : Int) : Int :=
  (List.range n.toNat).foldl (fun (a : Int) (k : Nat) => a * ((k : Int) + 1)) 1

/-- Calculates unary operations (`Simplifier::unary_num_ops`): a Factorial
node whose operand is a literal `n` with `n <= 10` becomes the literal
`(1..=n).product()`; everything else is returned unchanged. -/
def unary_num_ops (ast : Ast) : Ast :=
  match ast with
  | .unary .fac (.num n) => if n ≤ 10 then .num (prodRange n) else ast
  | a => a

/-- The partition of `Simplifier::term_factor_coeff`: splits a children list
into (at most one) first child structurally equal to the target and all
remaining children, both sides keeping their relative order (the Rust
`partition` whose closure consumes a `first` flag). -/
def partitionFirst (target : Ast) : List Ast → Bool → List Ast × List Ast
  | [], _ => ([], [])
  | x :: xs, first =>
      if first = true ∧ x = target then
        let p := partitionFirst target xs false
        (x :: p.1, p.2)
      else
        let p := partitionFirst target xs first
        (p.1, x :: p.2)

/-- Removes the first occurrence of `t` from a list, keeping the remaining
elements in their original order: used to state what extraction leaves. -/
def removeFirst (t : Ast) : List Ast → List Ast
  | [] => []
  | x :: xs => if x = t then xs else x :: removeFirst t xs

/-- Coefficient extraction (`Simplifier::term_factor_coeff`): from an
operator node, the first child structurally equal to `looking_for` is
removed and the rest form the coefficient under the term's own operator; a
non-operator term equal to `looking_for` has coefficient `1`; otherwise
extraction fails.  The Rust `unreachable!()` branch (two or more partition
matches) is provably dead — see `partitionFirst_fst_length_le` — and is
merged into the failure branch. -/
def term_factor_coeff (term looking_for : Ast) : Option Ast :=
  match term with
  | .binary op operands =>
      let p := partitionFirst looking_for operands true
      if p.1.length = 1 then some (Binary.build op p.2) else none
  | other => if other = looking_for then some (.num 1) else none

/-- The inner scan of `Simplifier::combine_terms`
(`terms.iter().enumerate().skip(i).filter_map(...)`), written as a
recursion over the suffix paired with its running index `j`: collects every
position whose term yields a coefficient for the candidate factor `f`. -/
def scanFrom (f : Ast) : List Ast → Nat → List (Nat × Ast)
  | [], _ => []
  | t :: ts, j =>
      match term_factor_coeff t f with
      | some c => (j, c) :: scanFrom f ts (j + 1)
      | none => scanFrom f ts (j + 1)

/-- The scan over all positions at or after `i` for a candidate factor `f`
(note: the source skips only the first `i` positions — it does not consult
the `skipped` set here). -/
def scanMatches (terms : List Ast) (i : Nat) (f : Ast) : List (Nat × Ast) :=
  scanFrom f (terms.drop i) i

/-- The candidate-factor loop of `Simplifier::combine_terms` for a Multiply
term (`for looking_for in factors`): for each candidate in order, scan,
accumulate coefficients and consumed positions; a candidate whose
accumulated coefficient list has exactly one entry is discarded (the
accumulator is cleared but the consumed positions are kept, as in the
source); the first surviving candidate breaks out.  Returns the chosen
factor (if any), the accumulated coefficient operands, and the updated
consumed set. -/
def tryFactors (terms : List Ast) (i : Nat) :
    List Nat → List Ast → List Ast → Option Ast × List Ast × List Nat
  | skipped, coeff, [] => (none, coeff, skipped)
  | skipped, coeff, f :: fs =>
      let ms := scanMatches terms i f
      let coeff' := coeff ++ ms.map Prod.snd
      let skipped' := skipped ++ ms.map Prod.fst
      if coeff'.length = 1 then tryFactors terms i skipped' [] fs
      else if ms = [] then tryFactors terms i skipped' coeff' fs
      else (some f, coeff', skipped')

/-- One iteration body of the outer loop of `Simplifier::combine_terms`
(the `match term` that computes `factor`): a Multiply term tries each of
its direct children as candidate factors; any other term is its own sole
candidate, kept when the scan found at least one match. -/
def pickFactor (terms : List Ast) (i : Nat) (skipped : List Nat) :
    Ast → Option Ast × List Ast × List Nat
  | .binary .mul factors => tryFactors terms i skipped [] factors
  | t =>
      let ms := scanMatches terms i t
      (if ms = [] then none else some t, ms.map Prod.snd, skipped ++ ms.map Prod.fst)

/-- The outer loop of `Simplifier::combine_terms` (`for (i, term) in
terms.iter().enumerate()`), driven by the remaining suffix and the running
index: positions in `skipped` are passed over; otherwise a factor and its
folded coefficient are emitted (`(factor, coeff)` match at the bottom of
the loop), nothing when no factor was found. -/
def combineLoop (terms : List Ast) : List Ast → Nat → List Nat → List Ast
  | [], _, _ => []
  | t :: rest, i, skipped =>
      if i ∈ skipped then combineLoop terms rest (i + 1) skipped
      else
        let r := pickFactor terms i skipped t
        let c := binary_num_ops (Binary.build .add r.2.1)
        (match r.1 with
         | some f => if c = Ast.num 1 then [f] else [Binary.build .mul [c, f]]
         | none => []) ++ combineLoop terms rest (i + 1) r.2.2

/-- Combines like terms (`Simplifier::combine_terms`): rewrites an Add node
so that terms sharing a common factor merge into `coefficient * factor`;
all other node shapes pass through unchanged. -/
def combine_terms (ast : Ast) : Ast :=
  match ast with
  | .binary .add terms => Binary.build .add (combineLoop terms terms 0 [])
  | a => a

/-- Sequences a list of optional results (`collect` over `Option` in the
driver's child loop): `some` of the list of results when every element
succeeds, `none` as soon as one fails. -/
def seqOpt {a b : Type} (f : a → Option b) : List a → Option (List b)
  | [] => some []
  | x :: xs =>
      match f x, seqOpt f xs with
      | some y, some ys => some (y :: ys)
      | _, _ => none

/-- Fuel-indexed form of `Simplifier::run_once`: the driver checks the
depth ceiling, recursively simplifies the children of an n-ary node at
`depth + 1` (`Simplifier::recurse` — children of unary nodes are not
visited), and applies the four passes in source order.  `none` models the
fatal "Recursion depth limit" abort.  The fuel only makes the recursion
structural: whenever `fuel ≥ 33 - depth` the fuel-exhaustion branch is
unreachable, because the depth guard fires first (see `run_once_eq`). -/
def run_once_fuel : Nat → Ast → Nat → Option Ast
  | 0, _, _ => none
  | fuel + 1, ast, depth =>
      if 32 ≤ depth then none
      else
        match ast with
        | .binary op ops =>
            match seqOpt (fun c => run_once_fuel fuel c (depth + 1)) ops with
            | some children =>
                some (binary_num_ops (unary_num_ops (combine_terms
                  (de_paren (Binary.build op children)))))
            | none => none
        | a => some (binary_num_ops (unary_num_ops (combine_terms (de_paren a))))

/-- `Simplifier::run_once`: one bottom-up sweep entered at the given depth. -/
def run_once (ast : Ast) (depth : Nat) : Option Ast :=
  run_once_fuel (33 - depth) ast depth

/-- `Simplifier::run`: the public entry point, one sweep at depth 0. -/
def run (ast : Ast) : Option Ast :=
  run_once ast 0

mutual

/-- The least depth ceiling that the driver's recursion actually reaches on
a tree: `0` on leaves, unary nodes (their operands are never visited) and
childless n-ary nodes, and one more than the maximum over the children of a
non-empty n-ary node.  `run_once t d` aborts exactly when
`32 ≤ d + abortNeed t` (see `run_once_none_iff`). -/
def abortNeed : Ast → Nat
  | .binary _ (c :: cs) => 1 + abortNeedL c cs
  | _ => 0
termination_by t => sizeOf t

/-- Maximum of `abortNeed` over a non-empty children list. -/
def abortNeedL (c : Ast) : List Ast → Nat
  | [] => abortNeed c
  | d :: ds => max (abortNeed c) (abortNeedL d ds)
termination_by l => sizeOf c + sizeOf l

end

mutual

/-- The claim's notion of NaryOp-nesting depth: the deepest count of n-ary
nodes along any root-to-leaf path, where descending into an n-ary child
adds one and unary nesting adds nothing (but is still descended through). -/
def naryNest : Ast → Nat
  | .binary _ (c :: cs) => 1 + naryNestL c cs
  | .unary _ a => naryNest a
  | _ => 0
termination_by t => sizeOf t

/-- Maximum of `naryNest` over a non-empty children list. -/
def naryNestL (c : Ast) : List Ast → Nat
  | [] => naryNest c
  | d :: ds => max (naryNest c) (naryNestL d ds)
termination_by l => sizeOf c + sizeOf l

end

/-- A chain of `n` nested single-child Add nodes around the literal `1`. -/
def nest : Nat → Ast
  | 0 => .num 1
  | n + 1 => .binary .add [nest n]

theorem partitionFirst_false (t : Ast) : ∀ l : List Ast,
    partitionFirst t l false = ([], l) := by
  intro l
  induction l with
  | nil => rfl
  | cons x xs ih => simp [partitionFirst, ih]

theorem partitionFirst_not_mem (t : Ast) : ∀ l : List Ast, t ∉ l →
    partitionFirst t l true = ([], l) := by
  intro l
  induction l with
  | nil => intro _; rfl
  | cons x xs ih =>
      intro h
      have hx : x ≠ t := fun hx => h (hx ▸ List.mem_cons_self x xs)
      have hxs : t ∉ xs := fun hm => h (List.mem_cons_of_mem x hm)
      simp [partitionFirst, hx, ih hxs]

theorem partitionFirst_mem (t : Ast) : ∀ l : List Ast, t ∈ l →
    partitionFirst t l true = ([t], removeFirst t l) := by
  intro l
  induction l with
  | nil => intro h; cases h
  | cons x xs ih =>
      intro h
      by_cases hx : x = t
      · subst hx
        simp [partitionFirst, removeFirst, partitionFirst_false]
      · have hxs : t ∈ xs := by
          rcases List.mem_cons.mp h with h | h
          · exact absurd h.symm hx
          · exact h
        simp [partitionFirst, hx, removeFirst, ih hxs]

theorem partitionFirst_fst_length_le (t : Ast) : ∀ (l : List Ast) (b : Bool),
    (partitionFirst t l b).1.length ≤ 1 := by
  intro l
  induction l with
  | nil => intro b; simp [partitionFirst]
  | cons x xs ih =>
      intro b
      by_cases h : b = true ∧ x = t
      · simp [partitionFirst, h, partitionFirst_false]
      · simp only [partitionFirst, if_neg h]
        exact ih b

/-- C3: coefficient extraction: from an operator node, the first child
structurally equal to the target is removed and the coefficient is the
term's own operator applied to the remaining children in their original
order; with no equal child, extraction fails; a non-operator term (number,
symbol, unary node) yields the literal `1` exactly when it is structurally
equal to the target, and fails otherwise. -/
theorem C3_theorem :
    (∀ (op : BinaryOp) (children : List Ast) (target : Ast),
       term_factor_coeff (.binary op children) target =
         if target ∈ children then some (Binary.build op (removeFirst target children))
         else none)
    ∧ (∀ (n : Int) (target : Ast),
       term_factor_coeff (.num n) target =
         if Ast.num n = target then some (.num 1) else none)
    ∧ (∀ (s : String) (target : Ast),
       term_factor_coeff (.var s) target =
         if Ast.var s = target then some (.num 1) else none)
    ∧ (∀ (u : UnaryOp) (a target : Ast),
       term_factor_coeff (.unary u a) target =
         if Ast.unary u a = target then some (.num 1) else none) := by
  refine ⟨?_, fun n target => rfl, fun s target => rfl, fun u a target => rfl⟩
  intro op children target
  by_cases h : target ∈ children
  · simp [term_factor_coeff, partitionFirst_mem target children h, h]
  · simp [term_factor_coeff, partitionFirst_not_mem target children h, h]

theorem bnoPass_eq (op : BinaryOp) : ∀ (l : List Ast) (r : Int),
    bnoPass op l r =
      (l.filter (fun a => !a.isNum), (l.filterMap numLit).foldl (foldStep op) r) := by
  intro l
  induction l with
  | nil => intro r; rfl
  | cons a rest ih =>
      intro r
      cases a <;> simp [bnoPass, numLit, Ast.isNum, List.filter, ih]

/-- C4: n-ary constant folding removes every literal child, folds the
literal values in operand order into one accumulator starting at the
operator's identity (Add sums; Mul multiplies; Pow replaces the accumulator
by the literal raised to the current accumulator), keeps the non-literal
children in their original relative order, and appends the folded value as
a single trailing literal exactly when it differs from the identity; in
particular `Power(2,3)` folds to the literal `9`, not `8`. -/
theorem C4_theorem :
    (∀ (op : BinaryOp) (operands : List Ast),
       binary_num_ops (.binary op operands) =
         Binary.build op
           ((operands.filter fun a => !a.isNum) ++
             (if (operands.filterMap numLit).foldl (foldStep op) op.identity ≠ op.identity
              then [.num ((operands.filterMap numLit).foldl (foldStep op) op.identity)]
              else [])))
    ∧ binary_num_ops (.binary .pow [.num 2, .num 3]) = .num 9 := by
  refine ⟨?_, by decide⟩
  intro op operands
  show Binary.build op _ = _
  rw [bnoPass_eq]
  by_cases h : (operands.filterMap numLit).foldl (foldStep op) op.identity = op.identity
  · simp [h]
  · simp [h]

theorem prodRange_eq_factorial : ∀ n : Int, prodRange n = (Nat.factorial n.toNat : Int) := by
  have key : ∀ m : Nat,
      (List.range m).foldl (fun (a : Int) (k : Nat) => a * ((k : Int) + 1)) 1 =
        (Nat.factorial m : Int) := by
    intro m
    induction m with
    | zero => simp [Nat.factorial]
    | succ m ih =>
        rw [List.range_succ, List.foldl_append, ih]
        simp [Nat.factorial_succ]
        ring
  intro n
  exact key n.toNat

/-- C5 (amended): unary constant folding replaces `Factorial(n)` for a
literal `n` by the literal `(1..=n).product() = (max n 0)!` exactly when
`n ≤ 10` — the guard has no lower bound, so a negative literal folds to the
empty product `1` — while `Factorial(11)` and beyond, factorials of
non-literal operands, and non-unary nodes are returned unchanged. -/
theorem C5_theorem :
    (∀ n : Int,
       unary_num_ops (.unary .fac (.num n)) =
         if n ≤ 10 then .num (Nat.factorial n.toNat : Int) else .unary .fac (.num n))
    ∧ (∀ a : Ast, a.isNum = false → unary_num_ops (.unary .fac a) = .unary .fac a)
    ∧ (∀ a : Ast, a.isUnary = false → unary_num_ops a = a) := by
  refine ⟨?_, ?_, ?_⟩
  · intro n
    rw [show unary_num_ops (.unary .fac (.num n)) =
        (if n ≤ 10 then .num (prodRange n) else .unary .fac (.num n)) from rfl,
      prodRange_eq_factorial]
  · intro a ha
    cases a <;> simp [Ast.isNum] at ha ⊢ <;> rfl
  · intro a ha
    cases a <;> simp [Ast.isUnary] at ha ⊢ <;> rfl

/-- C5 witness: `Factorial` of a non-literal operand and a non-unary node
are unchanged; `Factorial(4)` folds to `24 = 4!`. -/
theorem C5_witness :
    unary_num_ops (.unary .fac (.var "x")) = .unary .fac (.var "x")
    ∧ unary_num_ops (.num 0) = .num 0
    ∧ unary_num_ops (.unary .fac (.num 4)) =
        if (4 : Int) ≤ 10 then .num (Nat.factorial (Int.toNat 4) : Int)
        else .unary .fac (.num 4) :=
  ⟨C5_theorem.2.1 (.var "x") (by decide), C5_theorem.2.2 (.num 0) (by decide),
   C5_theorem.1 4⟩

/-- C5 counterexample: the claim says folding happens exactly when
`0 ≤ n ≤ 10` and that a literal outside that range is left unchanged, but
the source's guard is only `n <= 10`: `Factorial(-1)` is rewritten to the
literal `1` (the empty product), not left unchanged. -/
theorem C5_counterexample :
    unary_num_ops (.unary .fac (.num (-1))) = .num 1
    ∧ Ast.num 1 ≠ .unary .fac (.num (-1)) := by
  exact ⟨by decide, by decide⟩

theorem spliceSame_eq (op : BinaryOp) : ∀ ops : List Ast,
    ((ops.map fun c =>
      match c with
      | .binary b cs => if b = op then cs else [.binary b cs]
      | c => [c]).flatten) = spliceSame op ops := by
  intro ops
  induction ops with
  | nil => rfl
  | cons c rest ih =>
      cases c with
      | binary b cs =>
          by_cases hb : b = op <;> simp [spliceSame, hb, ih]
      | num n => simp [spliceSame, ih]
      | var s => simp [spliceSame, ih]
      | unary u a => simp [spliceSame, ih]

/-- C7: associative flattening on an n-ary node with operator `op` replaces
each child that is itself an n-ary node with the same operator `op` by that
child's own children spliced in place, one level, and keeps every other
child — including n-ary children with a different operator — as-is,
preserving order; in particular
`Multiply(Multiply(0,1), Add("a","b"), 3)` becomes
`Multiply(0, 1, Add("a","b"), 3)`. -/
theorem C7_theorem :
    (∀ (op : BinaryOp) (ops : List Ast),
       de_paren (.binary op ops) = Binary.build op (spliceSame op ops))
    ∧ de_paren (.binary .mul [.binary .mul [.num 0, .num 1],
        .binary .add [.var "a", .var "b"], .num 3]) =
      .binary .mul [.num 0, .num 1, .binary .add [.var "a", .var "b"], .num 3] := by
  refine ⟨?_, by decide⟩
  intro op ops
  show Binary.build op _ = _
  rw [spliceSame_eq]

theorem seqOpt_eq_none {a b : Type} (f : a → Option b) : ∀ l : List a,
    seqOpt f l = none ↔ ∃ x ∈ l, f x = none := by
  intro l
  induction l with
  | nil => simp [seqOpt]
  | cons x xs ih =>
      cases hfx : f x with
      | none =>
          simp only [seqOpt, hfx]
          exact ⟨fun _ => ⟨x, List.mem_cons_self x xs, hfx⟩, fun _ => trivial⟩
      | some y =>
          cases hxs : seqOpt f xs with
          | none =>
              simp only [seqOpt, hfx, hxs]
              constructor
              · intro _
                rcases ih.mp hxs with ⟨z, hz, hzn⟩
                exact ⟨z, List.mem_cons_of_mem x hz, hzn⟩
              · intro _; trivial
          | some ys =>
              simp only [seqOpt, hfx, hxs]
              constructor
              · intro hcontra; cases hcontra
              · rintro ⟨z, hz, hzn⟩
                rcases List.mem_cons.mp hz with rfl | hz
                · rw [hfx] at hzn; cases hzn
                · have h := ih.mpr ⟨z, hz, hzn⟩
                  rw [hxs] at h; cases h

theorem run_once_eq (ast : Ast) (depth : Nat) :
    run_once ast depth =
      if 32 ≤ depth then none
      else
        match ast with
        | .binary op ops =>
            match seqOpt (fun c => run_once c (depth + 1)) ops with
            | some children =>
                some (binary_num_ops (unary_num_ops (combine_terms
                  (de_paren (Binary.build op children)))))
            | none => none
        | a => some (binary_num_ops (unary_num_ops (combine_terms (de_paren a)))) := by
  by_cases h : 32 ≤ depth
  · rw [if_pos h]
    unfold run_once
    rcases Nat.lt_or_ge depth 33 with h33 | h33
    · have h1 : 33 - depth = 1 := by omega
      rw [h1]
      simp [run_once_fuel, h]
    · have h0 : 33 - depth = 0 := by omega
      rw [h0]
      rfl
  · unfold run_once
    obtain ⟨k, hk⟩ : ∃ k, 33 - depth = k + 1 := ⟨32 - depth, by omega⟩
    rw [hk]
    have hfc : k = 33 - (depth + 1) := by omega
    subst hfc
    rfl

theorem abortNeedL_ge (K : Nat) : ∀ (l : List Ast) (c : Ast),
    32 ≤ K + abortNeedL c l ↔ ∃ x ∈ c :: l, 32 ≤ K + abortNeed x := by
  intro l
  induction l with
  | nil => intro c; simp [abortNeedL]
  | cons d ds ih =>
      intro c
      rw [abortNeedL]
      constructor
      · intro hmax
        rcases Nat.le_total (abortNeedL d ds) (abortNeed c) with hle | hle
        · exact ⟨c, List.mem_cons_self c _, by omega⟩
        · have : 32 ≤ K + abortNeedL d ds := by omega
          rcases (ih d).mp this with ⟨x, hx, hxle⟩
          exact ⟨x, List.mem_cons_of_mem c hx, hxle⟩
      · rintro ⟨x, hx, hxle⟩
        rcases List.mem_cons.mp hx with rfl | hx
        · omega
        · have : 32 ≤ K + abortNeedL d ds := (ih d).mpr ⟨x, hx, hxle⟩
          omega

theorem sizeOf_mem_ops {c : Ast} {ops : List Ast} (h : c ∈ ops) :
    ∀ op : BinaryOp, sizeOf c < sizeOf (Ast.binary op ops) := by
  intro op
  have h1 : sizeOf c < sizeOf ops := List.sizeOf_lt_of_mem h
  have h2 : sizeOf (Ast.binary op ops) = 1 + sizeOf op + sizeOf ops := by
    simp [Ast.binary.sizeOf_spec]
  omega

theorem run_once_binary_none (op : BinaryOp) (ops : List Ast) (d : Nat)
    (h32 : ¬ 32 ≤ d) :
    (run_once (.binary op ops) d = none) ↔ ∃ c ∈ ops, run_once c (d + 1) = none := by
  rw [run_once_eq, if_neg h32, ← seqOpt_eq_none (fun c => run_once c (d + 1)) ops]
  show (match seqOpt (fun c => run_once c (d + 1)) ops with
    | some children => some (binary_num_ops (unary_num_ops (combine_terms
        (de_paren (Binary.build op children)))))
    | none => (none : Option Ast)) = none ↔ _
  cases hm : seqOpt (fun c => run_once c (d + 1)) ops <;> simp

theorem run_once_none_iff : ∀ (t : Ast) (d : Nat),
    run_once t d = none ↔ 32 ≤ d + abortNeed t := by
  have main : ∀ (n : Nat) (t : Ast), sizeOf t ≤ n → ∀ d,
      (run_once t d = none ↔ 32 ≤ d + abortNeed t) := by
    intro n
    induction n with
    | zero =>
        intro t ht
        exfalso
        cases t <;> simp_all
    | succ n ih =>
        intro t ht d
        by_cases h32 : 32 ≤ d
        · rw [run_once_eq, if_pos h32]
          exact ⟨fun _ => by omega, fun _ => rfl⟩
        · cases t with
          | num m =>
              rw [run_once_eq, if_neg h32]
              show some _ = none ↔ _
              simp [abortNeed]
              omega
          | var s =>
              rw [run_once_eq, if_neg h32]
              show some _ = none ↔ _
              simp [abortNeed]
              omega
          | unary u a =>
              rw [run_once_eq, if_neg h32]
              show some _ = none ↔ _
              simp [abortNeed]
              omega
          | binary op ops =>
              have ihops : ∀ c ∈ ops, ∀ d',
                  (run_once c d' = none ↔ 32 ≤ d' + abortNeed c) := by
                intro c hc d'
                have := sizeOf_mem_ops hc op
                exact ih c (by omega) d'
              rw [run_once_binary_none op ops d h32]
              cases ops with
              | nil =>
                  simp [abortNeed]
                  omega
              | cons c cs' =>
                  rw [abortNeed]
                  constructor
                  · rintro ⟨x, hx, hxnone⟩
                    have hxle := (ihops x hx (d + 1)).mp hxnone
                    have := (abortNeedL_ge (d + 1) cs' c).mpr ⟨x, hx, hxle⟩
                    omega
                  · intro habs
                    have hle : 32 ≤ (d + 1) + abortNeedL c cs' := by omega
                    rcases (abortNeedL_ge (d + 1) cs' c).mp hle with ⟨x, hx, hxle⟩
                    exact ⟨x, hx, (ihops x hx (d + 1)).mpr hxle⟩
  intro t d
  exact main (sizeOf t) t (le_refl _) d

/-- C6 (amended): entered at depth 0 the engine always terminates, and it
aborts with the fatal recursion-depth fault exactly when the recursion
actually reaches depth 32, i.e. when 32 nested NaryOp nodes, each the child
of the previous one and the innermost having at least one child, hang from
the root without any intervening UnaryOp: the driver never descends into a
UnaryOp operand at all, so nesting below a unary node — contrary to the
claim's "UnaryOp nesting never increases depth" — never triggers the
abort. -/
theorem C6_theorem (t : Ast) : run t = none ↔ 32 ≤ abortNeed t := by
  have := run_once_none_iff t 0
  simpa [run] using this

theorem naryNest_nest : ∀ n : Nat, naryNest (nest n) = n := by
  intro n
  induction n with
  | zero => simp [nest, naryNest]
  | succ n ih =>
      rw [nest, naryNest, naryNestL, ih]
      omega

/-- C6 counterexample: the tree `Factorial(nest 32)` — 32 nested
single-child Add nodes below a unary operator — has a node at
NaryOp-nesting depth 32 in the claim's sense (`naryNest` counts +1 per
n-ary descent and +0 per unary descent), yet `run` does not abort: it
returns the tree unchanged, because the driver never recurses below the
unary node.  The claim's "aborts if and only if some node sits at depth
32 or more" is therefore false. -/
theorem C6_counterexample :
    32 ≤ naryNest (.unary .fac (nest 32))
    ∧ run (.unary .fac (nest 32)) = some (.unary .fac (nest 32)) := by
  constructor
  · rw [naryNest, naryNest_nest]
  · decide

/-- C9: the recursion driver never descends into a `UnaryOp`'s operand:
simplifying a unary node whose operand is not a literal number returns the
node — including its operand subtree — completely unchanged, at any depth
below the ceiling. -/
theorem C9_theorem (op : UnaryOp) (a : Ast) (depth : Nat) (h : a.isNum = false) :
    run_once (.unary op a) depth = if 32 ≤ depth then none else some (.unary op a) := by
  rw [run_once_eq]
  by_cases h32 : 32 ≤ depth
  · rw [if_pos h32, if_pos h32]
  · rw [if_neg h32, if_neg h32]
    have huno : unary_num_ops (.unary op a) = .unary op a := by
      cases op
      cases a with
      | num n => simp [Ast.isNum] at h
      | var s => rfl
      | unary u b => rfl
      | binary b l => rfl
    show some (binary_num_ops (unary_num_ops (combine_terms (de_paren (.unary op a))))) = _
    rw [show de_paren (.unary op a) = .unary op a from rfl,
      show combine_terms (.unary op a) = .unary op a from rfl, huno]
    rfl

/-- C9 witness: a factorial over the compound, simplifiable operand `1 + 2`
keeps that operand exactly as given. -/
theorem C9_witness :
    run_once (.unary .fac (.binary .add [.num 1, .num 2])) 0 =
      if 32 ≤ 0 then none else some (.unary .fac (.binary .add [.num 1, .num 2])) :=
  C9_theorem .fac (.binary .add [.num 1, .num 2]) 0 (by decide)

theorem scanFrom_mem (f : Ast) : ∀ (l : List Ast) (k j : Nat) (c : Ast),
    (j, c) ∈ scanFrom f l k →
    k ≤ j ∧ j < k + l.length ∧ term_factor_coeff (l.getD (j - k) (.num 0)) f = some c := by
  intro l
  induction l with
  | nil => intro k j c h; simp [scanFrom] at h
  | cons t ts ih =>
      intro k j c h
      cases htf : term_factor_coeff t f with
      | some c0 =>
          simp only [scanFrom, htf] at h
          rcases List.mem_cons.mp h with h | h
          · rw [Prod.mk.injEq] at h
            obtain ⟨h1, h2⟩ := h
            subst h1; subst h2
            refine ⟨le_refl _, by simp, ?_⟩
            simpa [Nat.sub_self] using htf
          · rcases ih (k + 1) j c h with ⟨h1, h2, h3⟩
            refine ⟨by omega, by simp; omega, ?_⟩
            have hj : j - k = (j - (k + 1)) + 1 := by omega
            rw [hj, List.getD_cons_succ]
            exact h3
      | none =>
          simp only [scanFrom, htf] at h
          rcases ih (k + 1) j c h with ⟨h1, h2, h3⟩
          refine ⟨by omega, by simp; omega, ?_⟩
          have hj : j - k = (j - (k + 1)) + 1 := by omega
          rw [hj, List.getD_cons_succ]
          exact h3

theorem scanFrom_fst_lt (f : Ast) : ∀ (l : List Ast) (k : Nat),
    ((scanFrom f l k).map Prod.fst).Pairwise (· < ·) := by
  intro l
  induction l with
  | nil => intro k; simp [scanFrom]
  | cons t ts ih =>
      intro k
      cases htf : term_factor_coeff t f with
      | none => simp only [scanFrom, htf]; exact ih (k + 1)
      | some c0 =>
          simp only [scanFrom, htf, List.map_cons]
          refine List.pairwise_cons.mpr ⟨?_, ih (k + 1)⟩
          intro j hj
          rcases List.mem_map.mp hj with ⟨⟨j', c⟩, hmem, hfst⟩
          have := (scanFrom_mem f ts (k + 1) j' c hmem).1
          simp at hfst
          omega

theorem scanMatches_mem (terms : List Ast) (i : Nat) (f : Ast) (j : Nat) (c : Ast)
    (h : (j, c) ∈ scanMatches terms i f) :
    i ≤ j ∧ j < terms.length ∧ term_factor_coeff (terms.getD j (.num 0)) f = some c := by
  have hi : i < terms.length := by
    by_contra hge
    have : terms.drop i = [] := List.drop_eq_nil_of_le (by omega)
    rw [scanMatches, this] at h
    simp [scanFrom] at h
  rcases scanFrom_mem f (terms.drop i) i j c h with ⟨h1, h2, h3⟩
  have hlen : terms.length = i + (terms.drop i).length := by
    conv_lhs => rw [← List.take_append_drop i terms]
    rw [List.length_append, List.length_take, Nat.min_eq_left (le_of_lt hi)]
  refine ⟨h1, by omega, ?_⟩
  have hg : (terms.drop i).getD (j - i) (.num 0) = terms.getD j (.num 0) := by
    rw [List.getD_eq_getElem?_getD, List.getD_eq_getElem?_getD, List.getElem?_drop,
      Nat.add_sub_cancel' h1]
  rw [← hg]
  exact h3

/-- C1 (amended): for a candidate factor the forward scan visits exactly
the positions at or after the current one — each at most once, and the
coefficient recorded for a position is extracted from the term at that
position — but it does not consult the consumed set: only the outer loop
skips consumed positions (third conjunct).  A position consumed by an
earlier iteration can therefore be scanned again, and contribute again,
from a later current position (see the counterexample). -/
theorem C1_theorem (terms : List Ast) (i : Nat) (f : Ast) :
    ((scanMatches terms i f).map Prod.fst).Pairwise (· < ·)
    ∧ (∀ (j : Nat) (c : Ast), (j, c) ∈ scanMatches terms i f →
        i ≤ j ∧ j < terms.length ∧ term_factor_coeff (terms.getD j (.num 0)) f = some c)
    ∧ (∀ (t : Ast) (rest : List Ast) (skipped : List Nat), i ∈ skipped →
        combineLoop terms (t :: rest) i skipped = combineLoop terms rest (i + 1) skipped) := by
  refine ⟨scanFrom_fst_lt f (terms.drop i) i,
    fun j c h => scanMatches_mem terms i f j c h,
    fun t rest skipped hsk => ?_⟩
  rw [combineLoop, if_pos hsk]

/-- C1 witness: on the singleton sum `[x]` with candidate factor `x`, the
scan records position `0` with coefficient `1`, within bounds and extracted
from the term at position `0`; and the outer loop skips a consumed current
position. -/
theorem C1_witness :
    ((0 : Nat) ≤ 0 ∧ 0 < [Ast.var "x"].length
      ∧ term_factor_coeff ([Ast.var "x"].getD 0 (.num 0)) (.var "x") = some (.num 1))
    ∧ combineLoop [Ast.var "x"] [.var "x"] 0 [0] = combineLoop [Ast.var "x"] [] 1 [0] :=
  ⟨(C1_theorem [Ast.var "x"] 0 (.var "x")).2.1 0 (.num 1) (by decide),
   (C1_theorem [Ast.var "x"] 0 (.var "x")).2.2 (.var "x") [] [0] (by decide)⟩

/-- C1 counterexample: on `x + y + x*y` the term at position 2 (`x*y`) is
consumed while combining position 0 (factor `x`, contributing coefficient
`y`), yet it is scanned again while combining position 1 (factor `y`) and
contributes coefficient `x` there as well: its coefficient is counted in
both output terms `(y+1)*x` and `(x+1)*y`, contradicting the claim that a
consumed position never contributes to a later term's accumulator. -/
theorem C1_counterexample :
    combine_terms (.binary .add [.var "x", .var "y", .binary .mul [.var "x", .var "y"]]) =
      .binary .add
        [.binary .mul [.binary .add [.var "y", .num 1], .var "x"],
         .binary .mul [.binary .add [.var "x", .num 1], .var "y"]] := by
  decide

theorem tfc_self_of_not_binary (t : Ast) (h : t.isBinary = false) :
    term_factor_coeff t t = some (.num 1) := by
  cases t with
  | binary op l => simp [Ast.isBinary] at h
  | num n => simp [term_factor_coeff]
  | var s => simp [term_factor_coeff]
  | unary u a => simp [term_factor_coeff]

theorem tfc_none_of_not_binary_ne (x t : Ast) (hx : x.isBinary = false) (hne : x ≠ t) :
    term_factor_coeff x t = none := by
  cases x with
  | binary op l => simp [Ast.isBinary] at hx
  | num n => simp [term_factor_coeff, hne]
  | var s => simp [term_factor_coeff, hne]
  | unary u a => simp [term_factor_coeff, hne]

theorem scanFrom_nil_of_none (f : Ast) : ∀ (l : List Ast) (k : Nat),
    (∀ x ∈ l, term_factor_coeff x f = none) → scanFrom f l k = [] := by
  intro l
  induction l with
  | nil => intro k _; rfl
  | cons t ts ih =>
      intro k h
      have ht := h t (List.mem_cons_self t ts)
      simp only [scanFrom, ht]
      exact ih (k + 1) (fun x hx => h x (List.mem_cons_of_mem t hx))

theorem tryFactors_none (terms : List Ast) (i : Nat) :
    ∀ (factors : List Ast) (skipped : List Nat),
      (∀ f ∈ factors, ∀ j, j < terms.length → j ≠ i →
        term_factor_coeff (terms.getD j (.num 0)) f = none) →
      (tryFactors terms i skipped [] factors).1 = none := by
  intro factors
  induction factors with
  | nil => intro skipped _; rfl
  | cons f fs ih =>
      intro skipped h
      have hf := h f (List.mem_cons_self f fs)
      have hall : ∀ p ∈ scanMatches terms i f, p.1 = i := by
        rintro ⟨j, c⟩ hp
        rcases scanMatches_mem terms i f j c hp with ⟨h1, h2, h3⟩
        by_contra hne
        rw [hf j h2 hne] at h3
        cases h3
      have htail : ∀ f' ∈ fs, ∀ j, j < terms.length → j ≠ i →
          term_factor_coeff (terms.getD j (.num 0)) f' = none :=
        fun f' hf' => h f' (List.mem_cons_of_mem f hf')
      rcases hms : scanMatches terms i f with _ | ⟨p, ps⟩
      · rw [tryFactors]
        simp only [hms, List.map_nil, List.append_nil, List.length_nil, if_true,
          Nat.zero_ne_one, if_false]
        exact ih skipped htail
      · have hps : ps = [] := by
          cases ps with
          | nil => rfl
          | cons q qs =>
              exfalso
              have hpw := scanFrom_fst_lt f (terms.drop i) i
              rw [show scanFrom f (terms.drop i) i = scanMatches terms i f from rfl,
                hms] at hpw
              rcases List.pairwise_cons.mp hpw with ⟨hhd, _⟩
              have hpq : p.1 < q.1 := hhd q.1 (by simp)
              have hp1 : p.1 = i := hall p (by rw [hms]; exact List.mem_cons_self _ _)
              have hq1 : q.1 = i := hall q (by rw [hms]; simp)
              omega
        subst hps
        rw [tryFactors]
        simp only [hms, List.map_cons, List.map_nil, List.nil_append, List.length_cons,
          List.length_nil, if_true]
        exact ih _ htail

theorem pickFactor_retains (terms : List Ast) (i : Nat) (skipped : List Nat)
    (t : Ast) (rest : List Ast)
    (hdrop : terms.drop i = t :: rest) (hb : t.isBinary = false) :
    (pickFactor terms i skipped t).1 = some t := by
  have hms : scanMatches terms i t = (i, .num 1) :: scanFrom t rest (i + 1) := by
    rw [scanMatches, hdrop]
    simp only [scanFrom, tfc_self_of_not_binary t hb]
  cases t with
  | binary op l => simp [Ast.isBinary] at hb
  | num m => simp [pickFactor, hms]
  | var s => simp [pickFactor, hms]
  | unary u a => simp [pickFactor, hms]

/-- C2 (amended): (1) a Multiply term none of whose direct factors can be
extracted from any other position of the sum yields no factor — each
candidate's scan matches only the current position, so every candidate is
discarded and the term is dropped; (3) a dropped term emits nothing into the
output list.  (2) But only a term that is not an operator node (a number,
symbol or unary node) is always retained: such a term matches itself with
coefficient 1.  A non-Multiply operator term (for instance a Power node)
never matches itself — extraction on an operator node looks only at its
children — so it too is dropped when nothing else matches it (see the
counterexample), contradicting the claim that every non-Multiply term is
retained. -/
theorem C2_theorem :
    (∀ (terms : List Ast) (i : Nat) (skipped : List Nat) (factors : List Ast),
       (∀ f ∈ factors, ∀ j, j < terms.length → j ≠ i →
          term_factor_coeff (terms.getD j (.num 0)) f = none) →
       (tryFactors terms i skipped [] factors).1 = none)
    ∧ (∀ (terms : List Ast) (i : Nat) (skipped : List Nat) (t : Ast) (rest : List Ast),
       terms.drop i = t :: rest → t.isBinary = false →
       (pickFactor terms i skipped t).1 = some t)
    ∧ (∀ (terms : List Ast) (i : Nat) (skipped : List Nat) (t : Ast) (rest : List Ast),
       i ∉ skipped → (pickFactor terms i skipped t).1 = none →
       combineLoop terms (t :: rest) i skipped =
         combineLoop terms rest (i + 1) (pickFactor terms i skipped t).2.2) := by
  refine ⟨fun terms i skipped factors h => tryFactors_none terms i factors skipped h,
    fun terms i skipped t rest h1 h2 => pickFactor_retains terms i skipped t rest h1 h2,
    fun terms i skipped t rest hns hnone => ?_⟩
  simp [combineLoop, hns, hnone]

/-- C2 witness: in `Add(Mul(x, y), z)` no factor of the Multiply term
occurs in the other term, so no factor is chosen for it and its iteration
emits nothing; a bare symbol term is retained. -/
theorem C2_witness :
    (tryFactors [Ast.binary .mul [.var "x", .var "y"], .var "z"] 0 [] []
        [.var "x", .var "y"]).1 = none
    ∧ (pickFactor [Ast.var "q"] 0 [] (.var "q")).1 = some (.var "q")
    ∧ combineLoop [Ast.binary .pow [.var "y", .num 2]] [.binary .pow [.var "y", .num 2]] 0 [] =
        combineLoop [Ast.binary .pow [.var "y", .num 2]] [] 1
          (pickFactor [Ast.binary .pow [.var "y", .num 2]] 0 []
            (.binary .pow [.var "y", .num 2])).2.2 :=
  ⟨C2_theorem.1 [Ast.binary .mul [.var "x", .var "y"], .var "z"] 0 [] [.var "x", .var "y"]
      (by decide),
   C2_theorem.2.1 [Ast.var "q"] 0 [] (.var "q") [] (by decide) (by decide),
   C2_theorem.2.2 [Ast.binary .pow [.var "y", .num 2]] 0 []
      (.binary .pow [.var "y", .num 2]) [] (by decide) (by decide)⟩

/-- C2 counterexample: in `Add(x, Power(y, 2))` the Power term is a
non-Multiply term, yet it is dropped: extraction of the whole Power node
from itself fails (an operator term only matches via its children), so the
claim that a non-Multiply term is always retained is false.  The output
keeps only `x` (the rebuilt one-term sum collapses to its single term). -/
theorem C2_counterexample :
    combine_terms (.binary .add [.var "x", .binary .pow [.var "y", .num 2]]) = .var "x" := by
  decide

theorem combineLoop_distinct (ops : List Ast)
    (hnb : ∀ x ∈ ops, x.isBinary = false) (hnd : ops.Nodup) :
    ∀ (l : List Ast) (k : Nat) (skipped : List Nat),
      ops.drop k = l → (∀ j ∈ skipped, j < k) → combineLoop ops l k skipped = l := by
  intro l
  induction l with
  | nil => intro k skipped _ _; rfl
  | cons t rest ih =>
      intro k skipped hdrop hsk
      have hkl : k < ops.length := by
        by_contra hge
        rw [List.drop_eq_nil_of_le (by omega)] at hdrop
        cases hdrop
      have hti : t ∈ ops := by
        have : t ∈ ops.drop k := by rw [hdrop]; exact List.mem_cons_self t rest
        exact List.drop_subset k ops this
      have htb : t.isBinary = false := hnb t hti
      have hknotsk : k ∉ skipped := fun hk => absurd (hsk k hk) (lt_irrefl k)
      have hrest : ops.drop (k + 1) = rest := by
        have h1 := congrArg List.tail hdrop
        rw [List.tail_drop] at h1
        simpa using h1
      have hnone : ∀ x ∈ rest, term_factor_coeff x t = none := by
        intro x hx
        have hxops : x ∈ ops := by
          have : x ∈ ops.drop (k + 1) := by rw [hrest]; exact hx
          exact List.drop_subset (k + 1) ops this
        have hxb : x.isBinary = false := hnb x hxops
        have hnd' : (t :: rest).Nodup := by
          rw [← hdrop]
          exact hnd.sublist (List.drop_sublist k ops)
        have hxt : x ≠ t := fun he =>
          (List.nodup_cons.mp hnd').1 (he ▸ hx)
        exact tfc_none_of_not_binary_ne x t hxb hxt
      have hms : scanMatches ops k t = [(k, .num 1)] := by
        rw [scanMatches, hdrop]
        simp only [scanFrom, tfc_self_of_not_binary t htb]
        rw [scanFrom_nil_of_none t rest (k + 1) hnone]
      have hpf : pickFactor ops k skipped t = (some t, [.num 1], skipped ++ [k]) := by
        cases t with
        | binary op2 l2 => simp [Ast.isBinary] at htb
        | num m => simp [pickFactor, hms]
        | var s => simp [pickFactor, hms]
        | unary u a => simp [pickFactor, hms]
      have hsk' : ∀ j ∈ skipped ++ [k], j < k + 1 := by
        intro j hj
        rcases List.mem_append.mp hj with hj | hj
        · exact Nat.lt_succ_of_lt (hsk j hj)
        · rw [List.mem_singleton.mp hj]; exact Nat.lt_succ_self k
      rw [combineLoop, if_neg hknotsk]
      simp only [hpf]
      rw [show binary_num_ops (Binary.build .add [Ast.num 1]) = Ast.num 1 from rfl]
      simp only [if_pos rfl]
      rw [ih (k + 1) (skipped ++ [k]) hrest hsk']
      rfl

/-- C10: `combine_terms` is the identity on an Add node with two or more
pairwise structurally distinct terms none of which is an operator node:
each term matches only itself during its own scan, receives folded
coefficient exactly `1`, and is re-emitted bare in its original position,
so the rebuilt Add node equals the input. -/
theorem C10_theorem (ops : List Ast) (h2 : 2 ≤ ops.length)
    (hnb : ∀ x ∈ ops, x.isBinary = false) (hnd : ops.Nodup) :
    combine_terms (.binary .add ops) = .binary .add ops := by
  have hloop := combineLoop_distinct ops hnb hnd ops 0 [] rfl (by simp)
  rw [show combine_terms (.binary .add ops) =
      Binary.build .add (combineLoop ops ops 0 []) from rfl, hloop]
  rcases ops with _ | ⟨a, _ | ⟨b, tl⟩⟩
  · simp at h2
  · simp at h2
  · rfl

/-- C10 witness: `Add("a", "b")` — two distinct non-operator terms — is
returned unchanged by `combine_terms`. -/
theorem C10_witness :
    combine_terms (.binary .add [.var "a", .var "b"]) = .binary .add [.var "a", .var "b"] :=
  C10_theorem [.var "a", .var "b"] (by decide) (by decide) (by decide)

/-- C8 (amended): one sweep is not idempotent in general — its output can
be rewritten further by a second sweep (see the counterexample, where the
combined terms of the first sweep are dropped as orphan products by the
second) — but any tree that one sweep returns unchanged is a fixed point of
every further sweep: if `run t = some t` then running the sweep again on
the output gives the same result. -/
theorem C8_theorem (t : Ast) (h : run t = some t) :
    (run t).bind (fun u => run u) = run t := by
  rw [h, Option.some_bind]
  exact h

/-- C8 witness: a bare symbol is a fixed point of the sweep. -/
theorem C8_witness :
    (run (.var "x")).bind (fun u => run u) = run (.var "x") :=
  C8_theorem (.var "x") (by decide)

/-- C8 counterexample: on `x + y + x*y` the first sweep produces
`(y+1)*x + (x+1)*y`; the second sweep drops both Multiply terms (each
factor of each term matches only its own term) and the empty rebuilt sum
collapses to `0`, so `simplify (simplify t) ≠ simplify t`: simplification
is not idempotent on its own output. -/
theorem C8_counterexample :
    ((run (.binary .add [.var "x", .var "y", .binary .mul [.var "x", .var "y"]])).bind
        fun u => run u)
      ≠ run (.binary .add [.var "x", .var "y", .binary .mul [.var "x", .var "y"]]) := by
  decide

/-- The source's `test_de_paren`, replayed on the embedding. -/
theorem source_test_de_paren :
    de_paren (.binary .mul [.binary .mul [.num 0, .num 1],
        .binary .add [.var "a", .var "b"], .num 3]) =
      .binary .mul [.num 0, .num 1, .binary .add [.var "a", .var "b"], .num 3] := by
  decide

/-- The source's `test_combine_terms`, replayed on the embedding:
`y*x*2 + x + x*2 + 3` combines to `(y*2 + 3)*x + 3`.  This test forces the
collapsing behaviour of the modelled node constructor `Binary.build`. -/
theorem source_test_combine_terms :
    combine_terms (.binary .add
        [.binary .mul [.var "y", .var "x", .num 2],
         .var "x",
         .binary .mul [.var "x", .num 2],
         .num 3]) =
      .binary .add
        [.binary .mul
          [.binary .add [.binary .mul [.var "y", .num 2], .num 3], .var "x"],
         .num 3] := by
  decide

/-- The source's `test_term_factor_coeff`, replayed on the embedding. -/
theorem source_test_term_factor_coeff :
    term_factor_coeff (.binary .mul [.var "x", .var "y", .num 4]) (.var "y") =
        some (.binary .mul [.var "x", .num 4])
    ∧ term_factor_coeff
        (.binary .mul [.var "x", .var "xx", .var "y", .var "yy", .num 4, .num 0])
        (.var "z") = none
    ∧ term_factor_coeff
        (.binary .mul [.var "x", .var "xx", .var "y", .var "yy", .num 4, .num 0])
        (.var "xx") =
        some (.binary .mul [.var "x", .var "y", .var "yy", .num 4, .num 0])
    ∧ term_factor_coeff (.var "xyz") (.var "xyz") = some (.num 1) := by
  refine ⟨by decide, by decide, by decide, by decide⟩

/-- The factorial examples of the spec (§4.4), replayed on the embedding. -/
theorem spec_examples_factorial :
    unary_num_ops (.unary .fac (.num 4)) = .num 24
    ∧ unary_num_ops (.unary .fac (.num 11)) = .unary .fac (.num 11) := by
  refine ⟨by decide, by decide⟩
